import Mathlib

/-!
Shallow embedding of the ScoreMJ repository: a tiered, score-annotated join
(`scored_merge`) implemented twice, once against pandas
(src/python/pandas.py) and once against PySpark (src/python/pyspark.py).

Cell values are modelled as `Option Scalar` (`none` is pandas NaN / Spark SQL
null).  A DataFrame is a column-name list together with a list of rows, each
row a list of cell values aligned positionally with the column list.
-/

set_option autoImplicit false

namespace ScoreMJ

/-- A scalar cell payload: the examples in the repository use ints and
strings. -/
inductive Scalar where
  | i : Int → Scalar
  | s : String → Scalar
deriving DecidableEq, Repr

/-- A cell value; `none` is pandas NaN / Spark SQL null. -/
abbrev Val := Option Scalar

/-- A DataFrame: column names plus rows of cell values, aligned by
position.  Column names may repeat (Spark join outputs do). -/
structure DF where
  cols : List String
  rows : List (List Val)
deriving DecidableEq, Repr

/-- A DataFrame is well formed when every row has one cell per column. -/
def wf (df : DF) : Bool :=
  df.rows.all (fun r => r.length == df.cols.length)

/-- Value of the first column named `k` in a row; null when the column is
absent or the row is exhausted. -/
def cell : List String → List Val → String → Val
  | [], _, _ => none
  | _ :: _, [], _ => none
  | c :: cs, v :: vs, k => if k = c then v else cell cs vs k

/-- pandas merge-key equality: `pd.merge` matches NaN keys with NaN keys,
so key equality is plain equality of `Option` values. -/
def pdEq (a b : Val) : Bool := a = b

/-- Spark SQL equality used by `left[kl] == right[kr]`: null never equals
anything, including null. -/
def sqlEq (a b : Val) : Bool :=
  match a, b with
  | some x, some y => x = y
  | _, _ => false

/-- Auxiliary descending range: `descRangeAux k hi = [hi, hi - 1, ..., hi - k + 1]`. -/
def descRangeAux : Nat → Int → List Int
  | 0, _ => []
  | k + 1, hi => hi :: descRangeAux k (hi - 1)

/-- Python `range(hi, lo, -1)`: `hi, hi - 1, ..., lo + 1`. -/
def descRange (hi lo : Int) : List Int :=
  descRangeAux (hi - lo).toNat hi

/-- Python slice `l[:i]`, including the negative-index case
(`l[:-k]` drops the last `k` elements). -/
def pySlice {α : Type} (l : List α) (i : Int) : List α :=
  if 0 ≤ i then l.take i.toNat else l.take (l.length - i.natAbs)

/-- Does one (left row, right row) pair satisfy every key-pair equality
under the engine's key-equality test? -/
def rowMatch (keyEq : Val → Val → Bool) (lcols rcols : List String)
    (pairs : List (String × String)) (lrow rrow : List Val) : Bool :=
  pairs.all fun p => keyEq (cell lcols lrow p.1) (cell rcols rrow p.2)

/-- Row-index pairs of `left × right` satisfying all key-pair equalities,
in left-major order — the order in which both join engines emit their
result rows. -/
def tierPairs (keyEq : Val → Val → Bool) (left right : DF)
    (pairs : List (String × String)) : List (Nat × Nat) :=
  ((List.range left.rows.length).map (fun li =>
    (List.range right.rows.length).filterMap (fun ri =>
      if rowMatch keyEq left.cols right.cols pairs
           (left.rows.getD li []) (right.rows.getD ri [])
      then some (li, ri) else none))).flatten

/-- Errors the two scripts can actually raise: pandas `KeyError` on an
unknown merge column, pandas `ValueError` from `pd.concat` of no objects,
and Spark `AnalysisException`. -/
inductive Err where
  | keyError : String → Err
  | valueError : Err
  | analysisError : String → Err
deriving DecidableEq, Repr

instance {ε α : Type} [DecidableEq ε] [DecidableEq α] :
    DecidableEq (Except ε α) := fun
  | .ok a, .ok b => decidable_of_iff (a = b) (by simp)
  | .ok _, .error _ => isFalse (by simp)
  | .error _, .ok _ => isFalse (by simp)
  | .error a, .error b => decidable_of_iff (a = b) (by simp)

/-! ### pandas engine (src/python/pandas.py) -/

/-- Right-side key columns dropped by `pd.merge`: when a key pair has the
same name on both sides, the two key columns are collapsed into the single
left-named column. -/
def coalescedKeys (lkeys rkeys : List String) : List String :=
  (lkeys.zip rkeys).filterMap fun p => if p.1 = p.2 then some p.2 else none

/-- A column name collides (and is suffixed by `pd.merge`) when it occurs
in both schemas and is not a collapsed same-name key pair. -/
def collides (left right : DF) (lkeys rkeys : List String) (c : String) : Bool :=
  left.cols.contains c && right.cols.contains c
    && !(coalescedKeys lkeys rkeys).contains c

/-- Payload of `pd.merge(left, right, left_on, right_on, how="inner",
suffixes=sfx)` once the key columns are known to exist: inner equality
join (NaN matches NaN), same-name key pairs collapsed to the left column,
colliding columns suffixed on both sides. -/
def pdMergeDF (left right : DF) (lkeys rkeys : List String)
    (sfx : String × String) : DF :=
  { cols :=
      left.cols.map (fun c =>
        if collides left right lkeys rkeys c then c ++ sfx.1 else c) ++
      (right.cols.filter (fun c => !(coalescedKeys lkeys rkeys).contains c)).map
        (fun c => if collides left right lkeys rkeys c then c ++ sfx.2 else c),
    rows := (tierPairs pdEq left right (lkeys.zip rkeys)).map fun p =>
      left.rows.getD p.1 [] ++
      ((right.cols.zip (right.rows.getD p.2 [])).filterMap fun q =>
        if (coalescedKeys lkeys rkeys).contains q.1 then none else some q.2) }

/-- The call `pd.merge` raises `KeyError` when a named merge column is missing from
its frame; otherwise it returns the join payload. -/
def pdMerge (left right : DF) (lkeys rkeys : List String)
    (sfx : String × String) : Except Err DF :=
  match lkeys.find? (fun k => !left.cols.contains k) with
  | some k => .error (.keyError k)
  | none =>
    match rkeys.find? (fun k => !right.cols.contains k) with
    | some k => .error (.keyError k)
    | none => .ok (pdMergeDF left right lkeys rkeys sfx)

/-- Overwrite the cell of the first column named `name` in one row. -/
def setColRow (cols : List String) (name : String) (v : Val) : List Val → List Val
  | [] => []
  | x :: xs =>
    match cols with
    | [] => x :: xs
    | c :: cs => if name = c then v :: xs else x :: setColRow cs name v xs

/-- Column assignment `df[name] = v` (pandas) and `df.withColumn(name, lit(v))` (Spark):
overwrite the column when it exists, else append it. -/
def setCol (name : String) (v : Val) (df : DF) : DF :=
  if df.cols.contains name then
    { cols := df.cols, rows := df.rows.map (setColRow df.cols name v) }
  else
    { cols := df.cols ++ [name], rows := df.rows.map (· ++ [v]) }

/-- Add a column name to a schema accumulator unless already present. -/
def addName (acc : List String) (c : String) : List String :=
  if acc.contains c then acc else acc ++ [c]

/-- Column order of `pd.concat` (sort=False): the first frame's columns,
then each later frame's new columns in order of first appearance. -/
def unionCols (dfs : List DF) : List String :=
  dfs.foldl (fun acc df => df.cols.foldl addName acc) []

/-- Reindex a row to a target schema, filling absent columns with NaN. -/
def reindexRow (target cols : List String) (row : List Val) : List Val :=
  target.map (cell cols row)

/-- Concatenation `pd.concat(dfs, ignore_index=True)` for a non-empty list: rows of each
frame in order, each reindexed to the union schema. -/
def pdConcat (dfs : List DF) : DF :=
  { cols := unionCols dfs,
    rows := (dfs.map fun df =>
      df.rows.map (reindexRow (unionCols dfs) df.cols)).flatten }

/-- Function `scored_merge` of src/python/pandas.py.  `merge_keys` is the dict as an
insertion-ordered pair list.  Note the loop `range(n_keys, min_score, -1)`
stops above `min_score`, and `pd.concat` of an empty batch list raises
`ValueError`. -/
def pandasScoredMerge (left right : DF) (merge_keys : List (String × String))
    (suffix : String × String) (min_score : Int) : Except Err DF :=
  let n_keys : Int := merge_keys.length
  let left_keys := merge_keys.map Prod.fst
  let right_keys := merge_keys.map Prod.snd
  match (descRange n_keys min_score).mapM (fun i =>
      (pdMerge left right (pySlice left_keys i) (pySlice right_keys i)
        suffix).map (setCol "merge_score" (some (Scalar.i i)))) with
  | .error e => .error e
  | .ok merge_result =>
    if merge_result.isEmpty then .error .valueError
    else .ok (pdConcat merge_result)

/-! ### PySpark engine (src/python/pyspark.py) -/

/-- Payload of `left.join(right, conds, how="inner")` with an explicit
condition list: all columns of both sides are kept under their original
names; nulls never match. -/
def sparkJoinDF (left right : DF) (pairs : List (String × String)) : DF :=
  { cols := left.cols ++ right.cols,
    rows := (tierPairs sqlEq left right pairs).map fun p =>
      left.rows.getD p.1 [] ++ right.rows.getD p.2 [] }

/-- The join raises `AnalysisException` while building `left[kl] ==
right[kr]` when a named column is missing; otherwise it returns the join
payload. -/
def sparkJoin (left right : DF) (pairs : List (String × String)) :
    Except Err DF :=
  match pairs.find? (fun p => !left.cols.contains p.1) with
  | some p => .error (.analysisError p.1)
  | none =>
    match pairs.find? (fun p => !right.cols.contains p.2) with
    | some p => .error (.analysisError p.2)
    | none => .ok (sparkJoinDF left right pairs)

/-- Rename `df.withColumnRenamed(old, new)`: rename every column named `old`;
a no-op when no column is named `old`. -/
def withColumnRenamed (old new : String) (df : DF) : DF :=
  { df with cols := df.cols.map fun c => if c = old then new else c }

/-- The conflict-handling loop of the PySpark `scored_merge`: for every
column present in both schemas and outside the current tier's keys, rename
`col + suffix[0]` back to `col` (Python iterates a set; modelled here in
left-schema order — the renames at issue are independent of order). -/
def sparkSuffixPass (left right : DF) (clk crk : List String)
    (sfx : String × String) (df : DF) : DF :=
  (left.cols.filter (fun c => right.cols.contains c)).foldl
    (fun acc c =>
      if !clk.contains c && !crk.contains c then
        withColumnRenamed (c ++ sfx.1) c acc
      else acc) df

/-- Union `a.unionByName b`: resolves `b`'s columns by name against `a`'s
schema.  It raises `AnalysisException` when either frame carries duplicate
column names (as real Spark does — and every tier batch here does
whenever the two input schemas share a name, since the join keeps both
sides' columns verbatim); otherwise it requires the same name set on both
sides and appends `b`'s rows reordered to `a`'s column order. -/
def unionByName (a b : DF) : Except Err DF :=
  if a.cols.Nodup ∧ b.cols.Nodup then
    if a.cols.all (fun c => b.cols.contains c)
        ∧ b.cols.all (fun c => a.cols.contains c) then
      .ok { cols := a.cols,
            rows := a.rows ++ b.rows.map (reindexRow a.cols b.cols) }
    else .error (.analysisError "unionByName")
  else .error (.analysisError "unionByName")

/-- One tier batch of the PySpark `scored_merge` payload: the tier-`i`
join, the `merge_score` column, then the conflict-handling renames. -/
def sparkTierBatch (left right : DF) (merge_keys : List (String × String))
    (suffix : String × String) (i : Int) : DF :=
  sparkSuffixPass left right (pySlice (merge_keys.map Prod.fst) i)
    (pySlice (merge_keys.map Prod.snd) i) suffix
    (setCol "merge_score" (some (Scalar.i i))
      (sparkJoinDF left right
        ((pySlice (merge_keys.map Prod.fst) i).zip
          (pySlice (merge_keys.map Prod.snd) i))))

/-- Function `scored_merge` of src/python/pyspark.py.  The loop
`range(n_keys, min_score - 1, -1)` includes `min_score`; an empty batch
list returns an empty frame with the left schema; otherwise the batches
are combined with `unionByName` in loop order. -/
def sparkScoredMerge (left right : DF) (merge_keys : List (String × String))
    (suffix : String × String) (min_score : Int) : Except Err DF :=
  let n_keys : Int := merge_keys.length
  let left_keys := merge_keys.map Prod.fst
  let right_keys := merge_keys.map Prod.snd
  match (descRange n_keys (min_score - 1)).mapM (fun i =>
      (sparkJoin left right
          ((pySlice left_keys i).zip (pySlice right_keys i))).map fun pm =>
        sparkSuffixPass left right (pySlice left_keys i)
          (pySlice right_keys i) suffix
          (setCol "merge_score" (some (Scalar.i i)) pm)) with
  | .error e => .error e
  | .ok merge_results =>
    match merge_results with
    | [] => .ok { cols := left.cols, rows := [] }
    | b :: bs => bs.foldlM unionByName b

/-- One tier batch of the pandas `scored_merge`: the tier-`i` merge plus
its constant `merge_score` column. -/
def pdTierBatch (left right : DF) (merge_keys : List (String × String))
    (suffix : String × String) (i : Int) : DF :=
  setCol "merge_score" (some (Scalar.i i))
    (pdMergeDF left right (pySlice (merge_keys.map Prod.fst) i)
      (pySlice (merge_keys.map Prod.snd) i) suffix)

/-- Schema shared by every PySpark tier batch when the conflict renames
are no-ops: both input schemas side by side, plus `merge_score` unless a
column of that name already exists. -/
def sparkBatchCols (left right : DF) : List String :=
  if (left.cols ++ right.cols).contains "merge_score" then
    left.cols ++ right.cols
  else left.cols ++ right.cols ++ ["merge_score"]

/-! ### Observation helpers -/

/-- Did the call succeed? -/
def isOk : Except Err DF → Bool
  | .ok _ => true
  | .error _ => false

/-- Rows of a successful result (empty on error). -/
def resRows : Except Err DF → List (List Val)
  | .ok df => df.rows
  | .error _ => []

/-- Columns of a successful result (empty on error). -/
def resCols : Except Err DF → List String
  | .ok df => df.cols
  | .error _ => []

/-- The `merge_score` cell of every result row, in result order. -/
def resScores : Except Err DF → List Val
  | .ok df => df.rows.map (fun r => cell df.cols r "merge_score")
  | .error _ => []

/-! ### The docstring example of both scripts -/

/-- Left frame of the docstring examples. -/
def exLeft : DF :=
  { cols := ["id", "code", "value"],
    rows := [[some (Scalar.i 1), some (Scalar.s "A"), some (Scalar.i 100)],
             [some (Scalar.i 2), some (Scalar.s "B"), some (Scalar.i 200)]] }

/-- Right frame of the docstring examples. -/
def exRight : DF :=
  { cols := ["id", "code", "category"],
    rows := [[some (Scalar.i 1), some (Scalar.s "A"), some (Scalar.s "X")],
             [some (Scalar.i 2), some (Scalar.s "C"), some (Scalar.s "Y")]] }

/-- Key mapping of the docstring examples: id maps to id, code to code. -/
def exKeys : List (String × String) := [("id", "id"), ("code", "code")]

/-- A variant of the docstring left frame with columns renamed so that the
two schemas share no name: the only inputs on which a multi-tier PySpark
run can get past `unionByName`. -/
def exLeftD : DF :=
  { cols := ["lid", "lcode", "value"],
    rows := [[some (Scalar.i 1), some (Scalar.s "A"), some (Scalar.i 100)],
             [some (Scalar.i 2), some (Scalar.s "B"), some (Scalar.i 200)]] }

/-- A variant of the docstring right frame with columns renamed so that
the two schemas share no name. -/
def exRightD : DF :=
  { cols := ["rid", "rcode", "category"],
    rows := [[some (Scalar.i 1), some (Scalar.s "A"), some (Scalar.s "X")],
             [some (Scalar.i 2), some (Scalar.s "C"), some (Scalar.s "Y")]] }

/-- Key mapping for the disjoint-schema variant frames. -/
def exKeysD : List (String × String) := [("lid", "rid"), ("lcode", "rcode")]

/-- A two-key left frame with no rows, its schema overlapping `wideRight`. -/
def emptyLeft2 : DF := { cols := ["k1", "k2"], rows := [] }

/-- A two-key, one-row right frame sharing `k1`, `k2` with `emptyLeft2`. -/
def wideRight : DF :=
  { cols := ["k1", "k2", "w"],
    rows := [[some (Scalar.i 1), some (Scalar.i 2), some (Scalar.i 3)]] }

/-- A left frame whose single row has a null first key. -/
def nullLeft : DF :=
  { cols := ["k1", "k2", "v"],
    rows := [[none, some (Scalar.i 5), some (Scalar.i 1)]] }

/-- A right frame whose single row has a null first key. -/
def nullRight : DF :=
  { cols := ["k1", "k2", "w"],
    rows := [[none, some (Scalar.i 5), some (Scalar.i 2)]] }

/-- A one-column left frame with no rows. -/
def emptyLeft : DF := { cols := ["k"], rows := [] }

/-- A one-column, one-row right frame. -/
def oneRight : DF := { cols := ["k"], rows := [[some (Scalar.i 1)]] }

end ScoreMJ

namespace ScoreMJ

/-! ### Claim theorems -/

/-- C1: the claim says both tier loops run `i` from `n` down to `min_score`
inclusive, so a batch with score `min_score` appears whenever the
tier-`min_score` join is non-empty.  The pandas loop is
`range(n_keys, min_score, -1)`, which excludes `min_score`: on the
docstring example with `min_score = 1` the tier-1 join is non-empty
(both id values match) yet the pandas result consists of the single
score-2 row.  The PySpark loop `range(n_keys, min_score - 1, -1)` does
include `min_score`, shown on the disjoint-schema variant of the same
data (the only kind of input on which a multi-tier PySpark run gets past
`unionByName`): there the result carries the score-2 row and both score-1
rows. -/
theorem claim_C1_pandas_tier_loop_excludes_min_score :
    tierPairs pdEq exLeft exRight [("id", "id")] = [(0, 0), (1, 1)] ∧
    resScores (pandasScoredMerge exLeft exRight exKeys ("_left", "_right") 1)
      = [some (Scalar.i 2)] ∧
    resScores (sparkScoredMerge exLeftD exRightD exKeysD ("_left", "_right") 1)
      = [some (Scalar.i 2), some (Scalar.i 1), some (Scalar.i 1)] := by
  decide

/-- C2: with `min_score = n` the claim says `scored_merge` returns the
single all-keys inner join, scored `n`, without raising.  The PySpark
variant does; the pandas loop `range(n, n, -1)` is empty, so
`pd.concat([])` raises `ValueError`.  Evaluated at the docstring example
with `min_score = n = 2`. -/
theorem claim_C2_pandas_min_score_eq_n_raises :
    pandasScoredMerge exLeft exRight exKeys ("_left", "_right") 2
      = .error .valueError ∧
    resScores (sparkScoredMerge exLeft exRight exKeys ("_left", "_right") 2)
      = [some (Scalar.i 2)] ∧
    resRows (sparkScoredMerge exLeft exRight exKeys ("_left", "_right") 2)
      = (sparkJoinDF exLeft exRight exKeys).rows.map (· ++ [some (Scalar.i 2)]) := by
  decide

/-- C3 counterexample: in the pandas variant a null key value does satisfy
the join equality — `pd.merge` matches NaN with NaN.  Joining two frames
whose single rows carry a null first key and an equal second key, the
tier-2 batch contains a row derived from those null-keyed rows, so the
claim "null key values never satisfy the join equality at any tier" is
false for the code. -/
theorem claim_C3_cex_pandas_null_keys_match :
    resRows (pandasScoredMerge nullLeft nullRight
        [("k1", "k1"), ("k2", "k2")] ("_l", "_r") 1)
      = [[none, some (Scalar.i 5), some (Scalar.i 1), some (Scalar.i 2),
          some (Scalar.i 2)]] ∧
    tierPairs pdEq nullLeft nullRight [("k1", "k1"), ("k2", "k2")]
      = [(0, 0)] := by
  decide

/-- C4: the claim says every colliding non-key column is suffixed on both
sides.  The PySpark conflict loop calls
`withColumnRenamed(col + suffix[0], col)` — renaming FROM the suffixed
name, which never exists — so it is a no-op and no suffix is ever applied.
Shown on a single-tier run (docstring frames, key pair id/id only,
`min_score = 1 = n`, so `unionByName` is never reached): the colliding
non-key column `code` is kept duplicated and unsuffixed on both sides,
with no `code_left`/`code_right`, although the script's own docstring
promises "Suffixes added to overlapping non-key columns".  (The pandas
variant, via `pd.merge`, does suffix both sides: with `min_score = 0` its
tier-1 batch contributes `code_left` and `code_right`.) -/
theorem claim_C4_pyspark_applies_no_suffix :
    resCols (sparkScoredMerge exLeft exRight [("id", "id")]
        ("_left", "_right") 1)
      = ["id", "code", "value", "id", "code", "category", "merge_score"] ∧
    resCols (pandasScoredMerge exLeft exRight exKeys ("_left", "_right") 0)
      = ["id", "code", "value", "category", "merge_score",
         "code_left", "code_right"] := by
  decide

/-- C5 counterexample: the claim says a `min_score` outside `[1, n]` makes
`scored_merge` fail with `InvalidArgument` before any join.  Neither
script validates anything: calling the pandas variant on the docstring
example with `min_score = 0` runs tiers 2 and 1 and returns a normal
result. -/
theorem claim_C5_cex_no_min_score_validation :
    isOk (pandasScoredMerge exLeft exRight exKeys ("_left", "_right") 0)
      = true ∧
    isOk (sparkScoredMerge exLeft exRight exKeys ("_left", "_right") 5)
      = true := by
  decide

/-- C6 counterexample: the claim says an empty input with a valid key
mapping and valid `min_score` yields an empty result without error.  With
`n = 1`, `min_score = 1` (valid per the spec) and an empty left frame, the
pandas tier loop `range(1, 1, -1)` is empty and `pd.concat([])` raises
`ValueError`. -/
theorem claim_C6_cex_pandas_empty_input_raises :
    pandasScoredMerge emptyLeft oneRight [("k", "k")] ("_l", "_r") 1
      = .error .valueError := by
  decide

/-- C7 counterexample: the claim says the two variants produce the same
(row, merge_score) outputs on equal inputs.  On the docstring example with
`min_score = 1` the pandas variant returns the single score-2 row, while
the PySpark variant produces two tier batches whose schemas duplicate
`id` and `code`, so its `unionByName` raises `AnalysisException` and no
rows are returned at all — the outputs differ. -/
theorem claim_C7_cex_engines_disagree :
    resScores (pandasScoredMerge exLeft exRight exKeys ("_left", "_right") 1)
      = [some (Scalar.i 2)] ∧
    sparkScoredMerge exLeft exRight exKeys ("_left", "_right") 1
      = .error (.analysisError "unionByName") := by
  decide

end ScoreMJ

namespace ScoreMJ

/-! ### Helper lemmas -/

lemma contains_eq_true_iff (l : List String) (a : String) :
    l.contains a = true ↔ a ∈ l :=
  List.elem_iff

lemma mapM_ok {α β : Type} (l : List α) (f : α → Except Err β) (g : α → β)
    (h : ∀ a ∈ l, f a = .ok (g a)) : l.mapM f = .ok (l.map g) := by
  induction l with
  | nil => rfl
  | cons x xs ih =>
    simp only [List.mapM_cons, List.map_cons]
    rw [h x (by simp), ih (fun a ha => h a (by simp [ha]))]
    rfl

lemma descRangeAux_eq_nil_iff (k : Nat) (hi : Int) :
    descRangeAux k hi = [] ↔ k = 0 := by
  cases k <;> simp [descRangeAux]

lemma descRange_eq_nil_iff (hi lo : Int) : descRange hi lo = [] ↔ hi ≤ lo := by
  rw [descRange, descRangeAux_eq_nil_iff]
  omega

lemma descRangeAux_chain (k : Nat) :
    ∀ hi : Int, List.Chain' (fun a b => b < a) (descRangeAux k hi) := by
  induction k with
  | zero => intro hi; exact List.chain'_nil
  | succ m ih =>
    intro hi
    rw [show descRangeAux (m + 1) hi = hi :: descRangeAux m (hi - 1) from rfl,
      List.chain'_cons']
    refine ⟨?_, ih (hi - 1)⟩
    intro y hy
    cases m with
    | zero => simp [descRangeAux] at hy
    | succ m2 =>
      rw [show descRangeAux (m2 + 1) (hi - 1)
            = (hi - 1) :: descRangeAux m2 (hi - 1 - 1) from rfl] at hy
      simp only [List.head?_cons, Option.mem_def, Option.some.injEq] at hy
      omega

lemma descRange_chain (hi lo : Int) :
    List.Chain' (fun a b => b < a) (descRange hi lo) :=
  descRangeAux_chain _ hi

lemma pySlice_subset {α : Type} (l : List α) (i : Int) :
    ∀ x ∈ pySlice l i, x ∈ l := by
  intro x hx
  unfold pySlice at hx
  split at hx <;> exact List.mem_of_mem_take hx

lemma mem_tierPairs {keyEq : Val → Val → Bool} {left right : DF}
    {pairs : List (String × String)} {li ri : Nat} :
    (li, ri) ∈ tierPairs keyEq left right pairs ↔
      li < left.rows.length ∧ ri < right.rows.length ∧
      rowMatch keyEq left.cols right.cols pairs
        (left.rows.getD li []) (right.rows.getD ri []) = true := by
  constructor
  · intro h
    rw [tierPairs, List.mem_flatten] at h
    obtain ⟨l, hl, hmem⟩ := h
    rw [List.mem_map] at hl
    obtain ⟨li2, hli2, rfl⟩ := hl
    rw [List.mem_range] at hli2
    rw [List.mem_filterMap] at hmem
    obtain ⟨ri2, hri2, hif⟩ := hmem
    rw [List.mem_range] at hri2
    split at hif
    · rename_i hm
      have hinj := Option.some.inj hif
      have e1 : li2 = li := congrArg Prod.fst hinj
      have e2 : ri2 = ri := congrArg Prod.snd hinj
      subst e1; subst e2
      exact ⟨hli2, hri2, hm⟩
    · exact absurd hif (by simp)
  · rintro ⟨h1, h2, h3⟩
    rw [tierPairs, List.mem_flatten]
    refine ⟨_, List.mem_map_of_mem _ (List.mem_range.mpr h1), ?_⟩
    rw [List.mem_filterMap]
    exact ⟨ri, List.mem_range.mpr h2, by rw [if_pos h3]⟩

lemma tierPairs_left_nil {keyEq : Val → Val → Bool} {left right : DF}
    {pairs : List (String × String)} (h : left.rows = []) :
    tierPairs keyEq left right pairs = [] := by
  simp [tierPairs, h]

lemma tierPairs_right_nil {keyEq : Val → Val → Bool} {left right : DF}
    {pairs : List (String × String)} (h : right.rows = []) :
    tierPairs keyEq left right pairs = [] := by
  simp [tierPairs, h, List.flatten_eq_nil_iff]

end ScoreMJ

namespace ScoreMJ

lemma pdMerge_ok {left right : DF} {lkeys rkeys : List String}
    {sfx : String × String}
    (hl : ∀ k ∈ lkeys, k ∈ left.cols) (hr : ∀ k ∈ rkeys, k ∈ right.cols) :
    pdMerge left right lkeys rkeys sfx
      = .ok (pdMergeDF left right lkeys rkeys sfx) := by
  have h1 : lkeys.find? (fun k => !left.cols.contains k) = none := by
    rw [List.find?_eq_none]
    intro k hk
    simp [contains_eq_true_iff, hl k hk]
  have h2 : rkeys.find? (fun k => !right.cols.contains k) = none := by
    rw [List.find?_eq_none]
    intro k hk
    simp [contains_eq_true_iff, hr k hk]
  unfold pdMerge
  rw [h1, h2]

lemma sparkJoin_ok {left right : DF} {pairs : List (String × String)}
    (hl : ∀ p ∈ pairs, p.1 ∈ left.cols)
    (hr : ∀ p ∈ pairs, p.2 ∈ right.cols) :
    sparkJoin left right pairs = .ok (sparkJoinDF left right pairs) := by
  have h1 : pairs.find? (fun p => !left.cols.contains p.1) = none := by
    rw [List.find?_eq_none]
    intro p hp
    simp [contains_eq_true_iff, hl p hp]
  have h2 : pairs.find? (fun p => !right.cols.contains p.2) = none := by
    rw [List.find?_eq_none]
    intro p hp
    simp [contains_eq_true_iff, hr p hp]
  unfold sparkJoin
  rw [h1, h2]

lemma map_rename_id {old new : String} {cols : List String} (h : old ∉ cols) :
    cols.map (fun c => if c = old then new else c) = cols := by
  induction cols with
  | nil => rfl
  | cons c cs ih =>
    have hco : ¬ c = old := by
      intro e
      exact h (by rw [← e]; exact List.mem_cons_self c cs)
    simp only [List.map_cons]
    rw [if_neg hco, ih (fun hc => h (List.mem_cons_of_mem c hc))]

lemma withColumnRenamed_id (old new : String) (df : DF) (h : old ∉ df.cols) :
    withColumnRenamed old new df = df := by
  unfold withColumnRenamed
  rw [map_rename_id h]

lemma foldl_rename_id (clk crk : List String) (sfx : String × String) :
    ∀ (cs : List String) (df : DF),
      (∀ c ∈ cs, (c ++ sfx.1) ∉ df.cols) →
      cs.foldl (fun acc c =>
        if !clk.contains c && !crk.contains c then
          withColumnRenamed (c ++ sfx.1) c acc
        else acc) df = df := by
  intro cs
  induction cs with
  | nil => intro df _; rfl
  | cons c cs ih =>
    intro df h
    rw [List.foldl_cons]
    have hstep : (if !clk.contains c && !crk.contains c then
        withColumnRenamed (c ++ sfx.1) c df else df) = df := by
      split
      · exact withColumnRenamed_id _ _ _ (h c (List.mem_cons_self c cs))
      · rfl
    rw [hstep]
    exact ih df (fun x hx => h x (List.mem_cons_of_mem c hx))

lemma sparkSuffixPass_id {left right : DF} {clk crk : List String}
    {sfx : String × String} {df : DF}
    (h : ∀ c ∈ left.cols, c ∈ right.cols → (c ++ sfx.1) ∉ df.cols) :
    sparkSuffixPass left right clk crk sfx df = df := by
  unfold sparkSuffixPass
  apply foldl_rename_id
  intro c hc
  rw [List.mem_filter] at hc
  exact h c hc.1 ((contains_eq_true_iff _ _).mp hc.2)

lemma setCol_cols (name : String) (v : Val) (df : DF) :
    (setCol name v df).cols
      = if df.cols.contains name then df.cols else df.cols ++ [name] := by
  unfold setCol
  split <;> rfl

lemma mem_setCol_cols (name : String) (v : Val) (df : DF) :
    name ∈ (setCol name v df).cols := by
  rw [setCol_cols]
  split
  · rename_i h
    exact (contains_eq_true_iff _ _).mp h
  · simp

end ScoreMJ

namespace ScoreMJ

lemma wf_iff (df : DF) :
    wf df = true ↔ ∀ row ∈ df.rows, row.length = df.cols.length := by
  unfold wf
  rw [List.all_eq_true]
  simp only [beq_iff_eq]

lemma length_setColRow (cols : List String) (name : String) (v : Val) :
    ∀ row : List Val, (setColRow cols name v row).length = row.length := by
  intro row
  induction row generalizing cols with
  | nil => cases cols <;> rfl
  | cons x xs ih =>
    cases cols with
    | nil => rfl
    | cons c cs =>
      show (if name = c then v :: xs else x :: setColRow cs name v xs).length = _
      split <;> simp [ih]

lemma cell_setColRow (name : String) (v : Val) :
    ∀ (cols : List String) (row : List Val), row.length = cols.length →
      name ∈ cols → cell cols (setColRow cols name v row) name = v := by
  intro cols
  induction cols with
  | nil => intro row h hc; exact absurd hc (by simp)
  | cons c cs ih =>
    intro row h hc
    cases row with
    | nil => simp at h
    | cons x xs =>
      by_cases hn : name = c
      · show cell (c :: cs) (if name = c then v :: xs else _) name = v
        rw [if_pos hn]
        show (if name = c then v else cell cs xs name) = v
        rw [if_pos hn]
      · show cell (c :: cs) (if name = c then _ else x :: setColRow cs name v xs) name = v
        rw [if_neg hn]
        show (if name = c then x else cell cs (setColRow cs name v xs) name) = v
        rw [if_neg hn]
        have hc2 : name ∈ cs := by
          rcases List.mem_cons.mp hc with h1 | h1
          · exact absurd h1 hn
          · exact h1
        exact ih xs (by simpa using h) hc2

lemma cell_append_singleton (name : String) (v : Val) :
    ∀ (cols : List String) (row : List Val), row.length = cols.length →
      name ∉ cols → cell (cols ++ [name]) (row ++ [v]) name = v := by
  intro cols
  induction cols with
  | nil =>
    intro row h _
    cases row with
    | nil => simp [cell]
    | cons _ _ => simp at h
  | cons c cs ih =>
    intro row h hc
    cases row with
    | nil => simp at h
    | cons x xs =>
      have hn : ¬ name = c := fun e => hc (by rw [e]; exact List.mem_cons_self c cs)
      show (if name = c then x else cell (cs ++ [name]) (xs ++ [v]) name) = v
      rw [if_neg hn]
      exact ih xs (by simpa using h) (fun m => hc (List.mem_cons_of_mem c m))

lemma cell_setCol (name : String) (v : Val) (df : DF) (hwf : wf df = true) :
    ∀ row ∈ (setCol name v df).rows,
      cell (setCol name v df).cols row name = v := by
  intro row hrow
  unfold setCol at hrow ⊢
  by_cases hc : df.cols.contains name = true
  · rw [if_pos hc] at hrow ⊢
    simp only [List.mem_map] at hrow
    obtain ⟨r0, hr0, rfl⟩ := hrow
    exact cell_setColRow name v df.cols r0 ((wf_iff df).mp hwf r0 hr0)
      ((contains_eq_true_iff _ _).mp hc)
  · rw [if_neg hc] at hrow ⊢
    simp only [List.mem_map] at hrow
    obtain ⟨r0, hr0, rfl⟩ := hrow
    refine cell_append_singleton name v df.cols r0 ((wf_iff df).mp hwf r0 hr0) ?_
    intro hmem
    exact hc ((contains_eq_true_iff _ _).mpr hmem)

lemma cell_map_self (f : String → Val) (name : String) :
    ∀ target : List String, name ∈ target →
      cell target (target.map f) name = f name := by
  intro target
  induction target with
  | nil => intro h; exact absurd h (by simp)
  | cons c cs ih =>
    intro h
    by_cases hn : name = c
    · show (if name = c then f c else cell cs (cs.map f) name) = f name
      rw [if_pos hn, hn]
    · show (if name = c then f c else cell cs (cs.map f) name) = f name
      rw [if_neg hn]
      have h2 : name ∈ cs := by
        rcases List.mem_cons.mp h with h1 | h1
        · exact absurd h1 hn
        · exact h1
      exact ih h2

lemma mem_addName_self (acc : List String) (c : String) : c ∈ addName acc c := by
  unfold addName
  split
  · rename_i h
    exact (contains_eq_true_iff _ _).mp h
  · simp

lemma mem_addName_of_mem {acc : List String} (c : String) {x : String}
    (h : x ∈ acc) : x ∈ addName acc c := by
  unfold addName
  split
  · exact h
  · simp [h]

lemma mem_foldl_addName_of_mem_acc (cs : List String) :
    ∀ {acc : List String} {x : String}, x ∈ acc → x ∈ cs.foldl addName acc := by
  induction cs with
  | nil => intro acc x h; exact h
  | cons c cs ih => intro acc x h; exact ih (mem_addName_of_mem c h)

lemma mem_foldl_addName_of_mem (cs : List String) :
    ∀ {acc : List String} {x : String}, x ∈ cs → x ∈ cs.foldl addName acc := by
  induction cs with
  | nil => intro acc x h; exact absurd h (by simp)
  | cons c cs ih =>
    intro acc x h
    rcases List.mem_cons.mp h with rfl | h2
    · exact mem_foldl_addName_of_mem_acc cs (mem_addName_self acc x)
    · exact ih h2

lemma mem_foldl_unionStep_of_mem_acc (dfs : List DF) :
    ∀ {acc : List String} {x : String}, x ∈ acc →
      x ∈ dfs.foldl (fun acc df => df.cols.foldl addName acc) acc := by
  induction dfs with
  | nil => intro acc x h; exact h
  | cons d ds ih =>
    intro acc x h
    exact ih (mem_foldl_addName_of_mem_acc _ h)

lemma mem_unionCols_aux (dfs : List DF) :
    ∀ {acc : List String} {df : DF} {c : String}, df ∈ dfs → c ∈ df.cols →
      c ∈ dfs.foldl (fun acc df => df.cols.foldl addName acc) acc := by
  induction dfs with
  | nil => intro acc df c h _; exact absurd h (by simp)
  | cons d ds ih =>
    intro acc df c hdf hc
    rw [List.foldl_cons]
    rcases List.mem_cons.mp hdf with rfl | h2
    · exact mem_foldl_unionStep_of_mem_acc ds (mem_foldl_addName_of_mem _ hc)
    · exact ih h2 hc

lemma mem_unionCols {dfs : List DF} {df : DF} {c : String}
    (hdf : df ∈ dfs) (hc : c ∈ df.cols) : c ∈ unionCols dfs :=
  mem_unionCols_aux dfs hdf hc

end ScoreMJ

namespace ScoreMJ

lemma filterMap_drop_length {α : Type} (p : String → Bool) :
    ∀ (cs : List String) (vs : List α), vs.length = cs.length →
      ((cs.zip vs).filterMap fun q => if p q.1 then none else some q.2).length
        = (cs.filter fun c => !p c).length := by
  intro cs
  induction cs with
  | nil => intro vs h; simp
  | cons c cs ih =>
    intro vs h
    cases vs with
    | nil => simp at h
    | cons v vs =>
      have hlen : vs.length = cs.length := by simpa using h
      by_cases hp : p c = true <;>
        simp [List.filterMap_cons, List.filter_cons, hp, ih vs hlen]

lemma wf_sparkJoinDF {left right : DF} (pairs : List (String × String))
    (hwl : wf left = true) (hwr : wf right = true) :
    wf (sparkJoinDF left right pairs) = true := by
  rw [wf_iff]
  intro row hrow
  simp only [sparkJoinDF, List.mem_map] at hrow
  obtain ⟨p, hp, rfl⟩ := hrow
  obtain ⟨li, ri⟩ := p
  rw [mem_tierPairs] at hp
  show (left.rows.getD li [] ++ right.rows.getD ri []).length
    = (left.cols ++ right.cols).length
  have h1 : left.rows.getD li [] ∈ left.rows := by
    rw [List.getD_eq_getElem left.rows [] hp.1]
    exact List.getElem_mem hp.1
  have h2 : right.rows.getD ri [] ∈ right.rows := by
    rw [List.getD_eq_getElem right.rows [] hp.2.1]
    exact List.getElem_mem hp.2.1
  rw [List.length_append, List.length_append,
    (wf_iff left).mp hwl _ h1, (wf_iff right).mp hwr _ h2]

lemma wf_pdMergeDF {left right : DF} (lkeys rkeys : List String)
    (sfx : String × String) (hwl : wf left = true) (hwr : wf right = true) :
    wf (pdMergeDF left right lkeys rkeys sfx) = true := by
  rw [wf_iff]
  intro row hrow
  simp only [pdMergeDF, List.mem_map] at hrow
  obtain ⟨p, hp, rfl⟩ := hrow
  obtain ⟨li, ri⟩ := p
  rw [mem_tierPairs] at hp
  have h1 : left.rows.getD li [] ∈ left.rows := by
    rw [List.getD_eq_getElem left.rows [] hp.1]
    exact List.getElem_mem hp.1
  have h2 : right.rows.getD ri [] ∈ right.rows := by
    rw [List.getD_eq_getElem right.rows [] hp.2.1]
    exact List.getElem_mem hp.2.1
  have h3 := (wf_iff left).mp hwl _ h1
  have h4 := filterMap_drop_length
    (fun c => (coalescedKeys lkeys rkeys).contains c) right.cols
    (right.rows.getD ri []) ((wf_iff right).mp hwr _ h2)
  simp [pdMergeDF]
  simp at h3 h4
  omega

lemma wf_setCol (name : String) (v : Val) (df : DF) (h : wf df = true) :
    wf (setCol name v df) = true := by
  rw [wf_iff] at h ⊢
  intro row hrow
  unfold setCol at hrow ⊢
  by_cases hc : df.cols.contains name = true
  · rw [if_pos hc] at hrow ⊢
    simp only [List.mem_map] at hrow
    obtain ⟨r0, hr0, rfl⟩ := hrow
    rw [length_setColRow]
    exact h r0 hr0
  · rw [if_neg hc] at hrow ⊢
    simp only [List.mem_map] at hrow
    obtain ⟨r0, hr0, rfl⟩ := hrow
    simp [h r0 hr0]

lemma pdTierBatch_ok {left right : DF} {mkeys : List (String × String)}
    {sfx : String × String} (i : Int)
    (hl : ∀ k ∈ mkeys.map Prod.fst, k ∈ left.cols)
    (hr : ∀ k ∈ mkeys.map Prod.snd, k ∈ right.cols) :
    (pdMerge left right (pySlice (mkeys.map Prod.fst) i)
        (pySlice (mkeys.map Prod.snd) i) sfx).map
      (setCol "merge_score" (some (Scalar.i i)))
      = .ok (pdTierBatch left right mkeys sfx i) := by
  rw [pdMerge_ok (fun k hk => hl k (pySlice_subset _ i k hk))
    (fun k hk => hr k (pySlice_subset _ i k hk))]
  rfl

lemma pandasScoredMerge_eq {left right : DF} {mkeys : List (String × String)}
    {sfx : String × String} {m : Int}
    (hl : ∀ k ∈ mkeys.map Prod.fst, k ∈ left.cols)
    (hr : ∀ k ∈ mkeys.map Prod.snd, k ∈ right.cols)
    (hm : m < (mkeys.length : Int)) :
    pandasScoredMerge left right mkeys sfx m
      = .ok (pdConcat ((descRange (mkeys.length : Int) m).map
          (pdTierBatch left right mkeys sfx))) := by
  have hb := mapM_ok (descRange (mkeys.length : Int) m)
    (fun i => (pdMerge left right (pySlice (mkeys.map Prod.fst) i)
        (pySlice (mkeys.map Prod.snd) i) sfx).map
      (setCol "merge_score" (some (Scalar.i i))))
    (pdTierBatch left right mkeys sfx)
    (fun i _ => pdTierBatch_ok i hl hr)
  have hne : ((descRange (mkeys.length : Int) m).map
      (pdTierBatch left right mkeys sfx)).isEmpty = false := by
    cases hd : descRange (mkeys.length : Int) m with
    | nil => rw [descRange_eq_nil_iff] at hd; omega
    | cons t ts => simp
  simp only [pandasScoredMerge]
  rw [hb]
  simp [hne]

end ScoreMJ

namespace ScoreMJ

lemma sparkTierBatch_ok {left right : DF} {mkeys : List (String × String)}
    {sfx : String × String} (i : Int)
    (hl : ∀ k ∈ mkeys.map Prod.fst, k ∈ left.cols)
    (hr : ∀ k ∈ mkeys.map Prod.snd, k ∈ right.cols) :
    (sparkJoin left right ((pySlice (mkeys.map Prod.fst) i).zip
        (pySlice (mkeys.map Prod.snd) i))).map
      (fun pm => sparkSuffixPass left right (pySlice (mkeys.map Prod.fst) i)
        (pySlice (mkeys.map Prod.snd) i) sfx
        (setCol "merge_score" (some (Scalar.i i)) pm))
      = .ok (sparkTierBatch left right mkeys sfx i) := by
  have hpl : ∀ p ∈ (pySlice (mkeys.map Prod.fst) i).zip
      (pySlice (mkeys.map Prod.snd) i), p.1 ∈ left.cols := by
    intro p hp
    obtain ⟨a, b⟩ := p
    exact hl a (pySlice_subset _ i a (List.of_mem_zip hp).1)
  have hpr : ∀ p ∈ (pySlice (mkeys.map Prod.fst) i).zip
      (pySlice (mkeys.map Prod.snd) i), p.2 ∈ right.cols := by
    intro p hp
    obtain ⟨a, b⟩ := p
    exact hr b (pySlice_subset _ i b (List.of_mem_zip hp).2)
  rw [sparkJoin_ok hpl hpr]
  rfl

lemma reindexRow_self :
    ∀ (cols : List String) (row : List Val), cols.Nodup →
      row.length = cols.length → reindexRow cols cols row = row := by
  intro cols
  induction cols with
  | nil =>
    intro row _ hlen
    cases row with
    | nil => rfl
    | cons v vs => simp at hlen
  | cons c cs ih =>
    intro row hnd hlen
    cases row with
    | nil => simp at hlen
    | cons v vs =>
      rw [List.nodup_cons] at hnd
      show (c :: cs).map (cell (c :: cs) (v :: vs)) = v :: vs
      rw [List.map_cons]
      congr 1
      · show (if c = c then v else cell cs vs c) = v
        rw [if_pos rfl]
      · have hmap : cs.map (cell (c :: cs) (v :: vs)) = cs.map (cell cs vs) := by
          apply List.map_congr_left
          intro x hx
          show (if x = c then v else cell cs vs x) = cell cs vs x
          have hxc : ¬ x = c := by
            intro e
            apply hnd.1
            rw [← e]
            exact hx
          rw [if_neg hxc]
        rw [hmap]
        exact ih vs hnd.2 (by simpa using hlen)

lemma foldlM_unionByName (c : List String) (hnd : c.Nodup) :
    ∀ (bs : List DF) (b : DF), b.cols = c → (∀ x ∈ bs, x.cols = c) →
      (∀ x ∈ bs, wf x = true) →
      bs.foldlM unionByName b
        = .ok { cols := c, rows := b.rows ++ (bs.map DF.rows).flatten } := by
  have hall : c.all (fun y => c.contains y) = true := by
    rw [List.all_eq_true]
    intro y hy
    exact (contains_eq_true_iff c y).mpr hy
  intro bs
  induction bs with
  | nil =>
    intro b hb _ _
    obtain ⟨bc, br⟩ := b
    simp only at hb
    subst hb
    simp only [List.foldlM_nil, List.map_nil, List.flatten_nil, List.append_nil]
    rfl
  | cons x xs ih =>
    intro b hb hxs hwfs
    rw [List.foldlM_cons]
    have hx : unionByName b x = .ok { cols := c, rows := b.rows ++ x.rows } := by
      unfold unionByName
      rw [hb, hxs x (List.mem_cons_self x xs)]
      rw [if_pos ⟨hnd, hnd⟩, if_pos ⟨hall, hall⟩]
      have hmap : x.rows.map (reindexRow c c) = x.rows := by
        conv_rhs => rw [← List.map_id x.rows]
        apply List.map_congr_left
        intro r hr
        have hlen : r.length = c.length := by
          rw [← hxs x (List.mem_cons_self x xs)]
          exact (wf_iff x).mp (hwfs x (List.mem_cons_self x xs)) r hr
        exact reindexRow_self c r hnd hlen
      rw [hmap]
    rw [hx]
    show xs.foldlM unionByName { cols := c, rows := b.rows ++ x.rows } = _
    rw [ih _ rfl (fun y hy => hxs y (List.mem_cons_of_mem x hy))
      (fun y hy => hwfs y (List.mem_cons_of_mem x hy))]
    simp

lemma sparkTierBatch_eq_setCol {left right : DF} {mkeys : List (String × String)}
    {sfx : String × String} (i : Int)
    (hsafe : ∀ c ∈ left.cols, c ∈ right.cols →
      (c ++ sfx.1) ∉ left.cols ++ right.cols ++ ["merge_score"]) :
    sparkTierBatch left right mkeys sfx i
      = setCol "merge_score" (some (Scalar.i i))
          (sparkJoinDF left right ((pySlice (mkeys.map Prod.fst) i).zip
            (pySlice (mkeys.map Prod.snd) i))) := by
  unfold sparkTierBatch
  apply sparkSuffixPass_id
  intro c hc1 hc2 hmem
  apply hsafe c hc1 hc2
  rw [setCol_cols] at hmem
  show c ++ sfx.1 ∈ left.cols ++ right.cols ++ ["merge_score"]
  split at hmem
  · have : c ++ sfx.1 ∈ left.cols ++ right.cols := hmem
    simp only [List.mem_append] at this ⊢
    tauto
  · have : c ++ sfx.1 ∈ (left.cols ++ right.cols) ++ ["merge_score"] := hmem
    simp only [List.mem_append] at this ⊢
    tauto

lemma sparkTierBatch_cols {left right : DF} {mkeys : List (String × String)}
    {sfx : String × String} (i : Int)
    (hsafe : ∀ c ∈ left.cols, c ∈ right.cols →
      (c ++ sfx.1) ∉ left.cols ++ right.cols ++ ["merge_score"]) :
    (sparkTierBatch left right mkeys sfx i).cols = sparkBatchCols left right := by
  rw [sparkTierBatch_eq_setCol i hsafe, setCol_cols]
  unfold sparkBatchCols
  rfl

lemma wf_sparkTierBatch {left right : DF} {mkeys : List (String × String)}
    {sfx : String × String} (i : Int)
    (hwl : wf left = true) (hwr : wf right = true)
    (hsafe : ∀ c ∈ left.cols, c ∈ right.cols →
      (c ++ sfx.1) ∉ left.cols ++ right.cols ++ ["merge_score"]) :
    wf (sparkTierBatch left right mkeys sfx i) = true := by
  rw [sparkTierBatch_eq_setCol i hsafe]
  exact wf_setCol _ _ _ (wf_sparkJoinDF _ hwl hwr)

lemma sparkScoredMerge_eq {left right : DF} {mkeys : List (String × String)}
    {sfx : String × String} {m : Int}
    (hwl : wf left = true) (hwr : wf right = true)
    (hl : ∀ k ∈ mkeys.map Prod.fst, k ∈ left.cols)
    (hr : ∀ k ∈ mkeys.map Prod.snd, k ∈ right.cols)
    (hsafe : ∀ c ∈ left.cols, c ∈ right.cols →
      (c ++ sfx.1) ∉ left.cols ++ right.cols ++ ["merge_score"])
    (hnd : (sparkBatchCols left right).Nodup)
    (hm : m ≤ (mkeys.length : Int)) :
    sparkScoredMerge left right mkeys sfx m
      = .ok { cols := sparkBatchCols left right,
              rows := ((descRange (mkeys.length : Int) (m - 1)).map
                (fun i => (sparkTierBatch left right mkeys sfx i).rows)).flatten } := by
  have hb := mapM_ok (descRange (mkeys.length : Int) (m - 1))
    (fun i => (sparkJoin left right ((pySlice (mkeys.map Prod.fst) i).zip
        (pySlice (mkeys.map Prod.snd) i))).map
      (fun pm => sparkSuffixPass left right (pySlice (mkeys.map Prod.fst) i)
        (pySlice (mkeys.map Prod.snd) i) sfx
        (setCol "merge_score" (some (Scalar.i i)) pm)))
    (sparkTierBatch left right mkeys sfx)
    (fun i _ => sparkTierBatch_ok i hl hr)
  obtain ⟨t, ts, hd⟩ : ∃ t ts,
      descRange (mkeys.length : Int) (m - 1) = t :: ts := by
    cases hcase : descRange (mkeys.length : Int) (m - 1) with
    | nil => rw [descRange_eq_nil_iff] at hcase; omega
    | cons a b => exact ⟨a, b, rfl⟩
  simp only [sparkScoredMerge]
  rw [hd] at hb ⊢
  rw [hb]
  show (ts.map (sparkTierBatch left right mkeys sfx)).foldlM unionByName
      (sparkTierBatch left right mkeys sfx t) = _
  rw [foldlM_unionByName (sparkBatchCols left right) hnd _ _
    (sparkTierBatch_cols t hsafe) ?hcols ?hwfs]
  case hcols =>
    intro y hy
    rw [List.mem_map] at hy
    obtain ⟨j, _, rfl⟩ := hy
    exact sparkTierBatch_cols j hsafe
  case hwfs =>
    intro y hy
    rw [List.mem_map] at hy
    obtain ⟨j, _, rfl⟩ := hy
    exact wf_sparkTierBatch j hwl hwr hsafe
  simp [List.map_map, Function.comp_def]

end ScoreMJ

namespace ScoreMJ

lemma take_zip {α β : Type} (a : List α) (b : List β) (n : Nat) :
    (a.take n).zip (b.take n) = (a.zip b).take n := by
  show (a.take n).zipWith Prod.mk (b.take n) = (a.zipWith Prod.mk b).take n
  rw [List.take_zipWith]

lemma mem_zip_take_succ {α β : Type} {a : List α} {b : List β} {n : Nat}
    {q : α × β} (h : q ∈ (a.take n).zip (b.take n)) :
    q ∈ (a.take (n + 1)).zip (b.take (n + 1)) := by
  rw [take_zip] at h ⊢
  have : (a.zip b).take n = ((a.zip b).take (n + 1)).take n := by
    rw [List.take_take]
    congr 1
    omega
  rw [this] at h
  exact List.mem_of_mem_take h

/-- C3 (amended): in the PySpark variant a null key value never satisfies
the join equality at any tier: every row-index pair matched under
`sqlEq` — the pair list from which `sparkJoinDF` generates the tier's
rows — has non-null cells in every key column of the tier's predicate, on
both sides.  (The pandas variant violates the claim as originally stated,
because `pd.merge` matches NaN with NaN: see the counterexample.) -/
theorem claim_C3_spark_null_never_matches (left right : DF)
    (pairs : List (String × String)) (li ri : Nat)
    (h : (li, ri) ∈ tierPairs sqlEq left right pairs)
    (kl kr : String) (hk : (kl, kr) ∈ pairs) :
    cell left.cols (left.rows.getD li []) kl ≠ none ∧
    cell right.cols (right.rows.getD ri []) kr ≠ none := by
  rw [mem_tierPairs] at h
  have hm := h.2.2
  rw [rowMatch, List.all_eq_true] at hm
  have hq := hm (kl, kr) hk
  cases hcl : cell left.cols (left.rows.getD li []) kl with
  | none => rw [hcl] at hq; simp [sqlEq] at hq
  | some x =>
    cases hcr : cell right.cols (right.rows.getD ri []) kr with
    | none => rw [hcl, hcr] at hq; simp [sqlEq] at hq
    | some y => simp

theorem claim_C3_witness :
    cell exLeft.cols (exLeft.rows.getD 0 []) "id" ≠ none ∧
    cell exRight.cols (exRight.rows.getD 0 []) "id" ≠ none :=
  claim_C3_spark_null_never_matches exLeft exRight [("id", "id")] 0 0
    (by decide) "id" "id" (by decide)

/-- C8: monotonic relaxation of the prefix predicate: any (left row,
right row) index pair matched over the first `i + 1` key pairs — the pair
list both engines build with `left_keys[:i]` / `right_keys[:i]` — is also
matched over the first `i` key pairs, for either engine's key-equality
test, so each tier's matched-pair set contains the next tier's. -/
theorem claim_C8_tier_monotonic (keyEq : Val → Val → Bool) (left right : DF)
    (mkeys : List (String × String)) (i : Int) (h0 : 0 ≤ i) (p : Nat × Nat)
    (h : p ∈ tierPairs keyEq left right
      ((pySlice (mkeys.map Prod.fst) (i + 1)).zip
        (pySlice (mkeys.map Prod.snd) (i + 1)))) :
    p ∈ tierPairs keyEq left right
      ((pySlice (mkeys.map Prod.fst) i).zip
        (pySlice (mkeys.map Prod.snd) i)) := by
  obtain ⟨li, ri⟩ := p
  rw [mem_tierPairs] at h ⊢
  refine ⟨h.1, h.2.1, ?_⟩
  have hm := h.2.2
  rw [rowMatch, List.all_eq_true] at hm ⊢
  intro q hq
  apply hm
  have hts : (i + 1).toNat = i.toNat + 1 := by omega
  rw [pySlice, if_pos h0, pySlice, if_pos h0] at hq
  rw [pySlice, if_pos (by omega : (0:Int) ≤ i + 1), pySlice,
    if_pos (by omega : (0:Int) ≤ i + 1), hts]
  exact mem_zip_take_succ hq

theorem claim_C8_witness :
    ((0, 0) : Nat × Nat) ∈ tierPairs sqlEq exLeft exRight
      ((pySlice (exKeys.map Prod.fst) 1).zip
        (pySlice (exKeys.map Prod.snd) 1)) :=
  claim_C8_tier_monotonic sqlEq exLeft exRight exKeys 1 (by decide) (0, 0)
    (by decide)

/-- C10: when the PySpark tier loop runs zero iterations
(`min_score > len(merge_keys)`), `scored_merge` returns an empty frame
whose schema is exactly the left input's schema — no right columns and no
`merge_score` column — instead of raising an error. -/
theorem claim_C10_empty_loop_returns_left_schema (left right : DF)
    (mkeys : List (String × String)) (sfx : String × String) (m : Int)
    (h : (mkeys.length : Int) < m) :
    sparkScoredMerge left right mkeys sfx m
      = .ok { cols := left.cols, rows := [] } := by
  have hnil : descRange (mkeys.length : Int) (m - 1) = [] := by
    rw [descRange_eq_nil_iff]
    omega
  simp only [sparkScoredMerge]
  rw [hnil]
  rfl

theorem claim_C10_witness :
    sparkScoredMerge exLeft exRight exKeys ("_left", "_right") 3
      = .ok { cols := exLeft.cols, rows := [] } :=
  claim_C10_empty_loop_returns_left_schema exLeft exRight exKeys
    ("_left", "_right") 3 (by decide)

end ScoreMJ

namespace ScoreMJ

lemma descRange_cons {hi lo : Int} (h : lo < hi) :
    descRange hi lo = hi :: descRange (hi - 1) lo := by
  unfold descRange
  have he : (hi - lo).toNat = (hi - 1 - lo).toNat + 1 := by omega
  rw [he, descRangeAux]

lemma setCol_rows_nil (name : String) (v : Val) (df : DF)
    (h : df.rows = []) : (setCol name v df).rows = [] := by
  unfold setCol
  split <;> simp [h]

lemma pdMergeDF_rows_nil {left right : DF} (lkeys rkeys : List String)
    (sfx : String × String) (h : left.rows = [] ∨ right.rows = []) :
    (pdMergeDF left right lkeys rkeys sfx).rows = [] := by
  simp only [pdMergeDF]
  rcases h with h | h
  · rw [tierPairs_left_nil h]
    rfl
  · rw [tierPairs_right_nil h]
    rfl

lemma pdTierBatch_rows_nil {left right : DF} {mkeys : List (String × String)}
    {sfx : String × String} (i : Int) (h : left.rows = [] ∨ right.rows = []) :
    (pdTierBatch left right mkeys sfx i).rows = [] := by
  unfold pdTierBatch
  exact setCol_rows_nil _ _ _ (pdMergeDF_rows_nil _ _ _ h)

lemma sparkJoinDF_rows_nil {left right : DF} (pairs : List (String × String))
    (h : left.rows = [] ∨ right.rows = []) :
    (sparkJoinDF left right pairs).rows = [] := by
  simp only [sparkJoinDF]
  rcases h with h | h
  · rw [tierPairs_left_nil h]
    rfl
  · rw [tierPairs_right_nil h]
    rfl

lemma foldl_rename_rows (clk crk : List String) (sfx : String × String) :
    ∀ (cs : List String) (df : DF),
      (cs.foldl (fun acc c =>
        if !clk.contains c && !crk.contains c then
          withColumnRenamed (c ++ sfx.1) c acc
        else acc) df).rows = df.rows := by
  intro cs
  induction cs with
  | nil => intro df; rfl
  | cons c cs ih =>
    intro df
    rw [List.foldl_cons, ih]
    split <;> rfl

lemma sparkSuffixPass_rows (left right : DF) (clk crk : List String)
    (sfx : String × String) (df : DF) :
    (sparkSuffixPass left right clk crk sfx df).rows = df.rows :=
  foldl_rename_rows clk crk sfx _ df

lemma sparkTierBatch_rows_nil {left right : DF} {mkeys : List (String × String)}
    {sfx : String × String} (i : Int) (h : left.rows = [] ∨ right.rows = []) :
    (sparkTierBatch left right mkeys sfx i).rows = [] := by
  unfold sparkTierBatch
  rw [sparkSuffixPass_rows]
  exact setCol_rows_nil _ _ _ (sparkJoinDF_rows_nil _ h)

lemma pdEq_eq_sqlEq {a b : Val} (ha : a ≠ none) (hb : b ≠ none) :
    pdEq a b = sqlEq a b := by
  cases a with
  | none => exact absurd rfl ha
  | some x =>
    cases b with
    | none => exact absurd rfl hb
    | some y => simp [pdEq, sqlEq]

lemma rowMatch_pd_eq_sql {lcols rcols : List String}
    {pairs : List (String × String)} {lrow rrow : List Val}
    (hA : ∀ p ∈ pairs, cell lcols lrow p.1 ≠ none)
    (hB : ∀ p ∈ pairs, cell rcols rrow p.2 ≠ none) :
    rowMatch pdEq lcols rcols pairs lrow rrow
      = rowMatch sqlEq lcols rcols pairs lrow rrow := by
  unfold rowMatch
  induction pairs with
  | nil => rfl
  | cons p ps ih =>
    simp only [List.all_cons]
    rw [pdEq_eq_sqlEq (hA p (List.mem_cons_self p ps)) (hB p (List.mem_cons_self p ps)),
      ih (fun q hq => hA q (List.mem_cons_of_mem p hq))
        (fun q hq => hB q (List.mem_cons_of_mem p hq))]

end ScoreMJ

namespace ScoreMJ

/-- C5 (amended): neither validation the claim describes exists; shown on
the pandas variant, whose behaviour outside `[1, n]` the counterexample
also fixes.  With `min_score = 0` — outside `[1, n]` — no
`InvalidArgument` is raised: when every key column exists the call runs
tiers `n..1` and returns a normal result; and when a left key column is
unknown, the error is the engine's `KeyError` raised by the first join
that uses it, not a `SchemaError` raised beforehand. -/
theorem claim_C5_no_upfront_validation :
    (∀ (left right : DF) (mkeys : List (String × String))
        (sfx : String × String),
      mkeys ≠ [] →
      (∀ k ∈ mkeys.map Prod.fst, k ∈ left.cols) →
      (∀ k ∈ mkeys.map Prod.snd, k ∈ right.cols) →
      isOk (pandasScoredMerge left right mkeys sfx 0) = true)
    ∧ (∀ (left right : DF) (mkeys : List (String × String))
        (sfx : String × String) (k : String),
      (mkeys.map Prod.fst).find? (fun k2 => !left.cols.contains k2) = some k →
      pandasScoredMerge left right mkeys sfx 0 = .error (.keyError k)) := by
  constructor
  · intro left right mkeys sfx hne hl hr
    have hm : (0 : Int) < (mkeys.length : Int) := by
      cases mkeys with
      | nil => exact absurd rfl hne
      | cons a l => simp
    rw [pandasScoredMerge_eq hl hr hm]
    rfl
  · intro left right mkeys sfx k hfind
    have hne : mkeys ≠ [] := by
      intro e
      subst e
      simp at hfind
    have hm : (0 : Int) < (mkeys.length : Int) := by
      cases mkeys with
      | nil => exact absurd rfl hne
      | cons a l => simp
    have hsl : pySlice (mkeys.map Prod.fst) (mkeys.length : Int)
        = mkeys.map Prod.fst := by
      rw [pySlice, if_pos (by omega)]
      simp
    have hmerge : pdMerge left right
        (pySlice (mkeys.map Prod.fst) (mkeys.length : Int))
        (pySlice (mkeys.map Prod.snd) (mkeys.length : Int)) sfx
        = .error (.keyError k) := by
      rw [hsl]
      unfold pdMerge
      rw [hfind]
    simp only [pandasScoredMerge]
    rw [descRange_cons hm, List.mapM_cons, hmerge]
    rfl

theorem claim_C5_witness :
    isOk (pandasScoredMerge exLeft exRight exKeys ("_left", "_right") 0)
      = true ∧
    pandasScoredMerge oneRight oneRight [("zzz", "k")] ("_l", "_r") 0
      = .error (.keyError "zzz") :=
  ⟨claim_C5_no_upfront_validation.1 exLeft exRight exKeys ("_left", "_right")
      (by decide) (by decide) (by decide),
    claim_C5_no_upfront_validation.2 oneRight oneRight [("zzz", "k")]
      ("_l", "_r") "zzz" (by decide)⟩

/-- C6 (amended): with every key column present, an empty `left` or empty
`right` yields a result with zero rows and no error only as far as the
code's own failure points allow.  For pandas this needs `min_score < n`:
with `min_score = n` the loop is empty and `pd.concat([])` raises
`ValueError` even on empty inputs (see the counterexample).  For PySpark,
`min_score = n` runs a single tier batch — `unionByName` is never reached
— and returns it empty; but as soon as two or more tiers run and the
input schemas share a column name, every tier batch carries that name
twice, so `unionByName` raises `AnalysisException` even on empty inputs
(the check is schema-level) — the last conjunct exhibits this on a
concrete empty-left input.  The resolved schema is in every successful
case the engine's own join schema, not the suffixed schema the spec
postulates. -/
theorem claim_C6_empty_inputs_empty_result (left right : DF)
    (mkeys : List (String × String)) (sfx : String × String) (m : Int)
    (hempty : left.rows = [] ∨ right.rows = [])
    (hl : ∀ k ∈ mkeys.map Prod.fst, k ∈ left.cols)
    (hr : ∀ k ∈ mkeys.map Prod.snd, k ∈ right.cols) :
    (m < (mkeys.length : Int) →
      pandasScoredMerge left right mkeys sfx m
        = .ok { cols := unionCols ((descRange (mkeys.length : Int) m).map
                  (pdTierBatch left right mkeys sfx)),
                rows := [] })
    ∧ (m = (mkeys.length : Int) → mkeys ≠ [] →
        sparkScoredMerge left right mkeys sfx m
          = .ok { cols := (sparkTierBatch left right mkeys sfx m).cols,
                  rows := [] })
    ∧ sparkScoredMerge emptyLeft2 wideRight [("k1", "k1"), ("k2", "k2")]
        ("_l", "_r") 1
      = .error (.analysisError "unionByName") := by
  refine ⟨?_, ?_, by decide⟩
  · intro hm
    rw [pandasScoredMerge_eq hl hr hm]
    congr 1
    simp only [pdConcat]
    congr 1
    rw [List.flatten_eq_nil_iff]
    intro l hll
    rw [List.mem_map] at hll
    obtain ⟨b, hb, rfl⟩ := hll
    rw [List.mem_map] at hb
    obtain ⟨i, _, rfl⟩ := hb
    rw [pdTierBatch_rows_nil i hempty]
    rfl
  · intro hm hne
    subst hm
    have hpos : (0 : Int) < (mkeys.length : Int) := by
      cases mkeys with
      | nil => exact absurd rfl hne
      | cons a l => simp
    have hone : descRange (mkeys.length : Int) ((mkeys.length : Int) - 1)
        = [(mkeys.length : Int)] := by
      rw [descRange_cons (by omega)]
      rw [(descRange_eq_nil_iff ((mkeys.length : Int) - 1)
        ((mkeys.length : Int) - 1)).mpr (le_refl _)]
    simp only [sparkScoredMerge]
    rw [hone, mapM_ok _ _ (sparkTierBatch left right mkeys sfx)
      (fun i _ => sparkTierBatch_ok i hl hr)]
    show Except.ok (sparkTierBatch left right mkeys sfx (mkeys.length : Int))
      = _
    have hrows : (sparkTierBatch left right mkeys sfx
        ((mkeys.length : Int))).rows = [] :=
      sparkTierBatch_rows_nil _ hempty
    generalize hB : sparkTierBatch left right mkeys sfx
      ((mkeys.length : Int)) = B at hrows ⊢
    obtain ⟨bc, br⟩ := B
    simp only at hrows
    subst hrows
    rfl

theorem claim_C6_witness :
    resRows (pandasScoredMerge emptyLeft oneRight [("k", "k")]
      ("_l", "_r") 0) = [] ∧
    resRows (sparkScoredMerge emptyLeft oneRight [("k", "k")]
      ("_l", "_r") 1) = [] := by
  have h0 := claim_C6_empty_inputs_empty_result emptyLeft oneRight
    [("k", "k")] ("_l", "_r") 0 (Or.inl rfl) (by decide) (by decide)
  have h1 := claim_C6_empty_inputs_empty_result emptyLeft oneRight
    [("k", "k")] ("_l", "_r") 1 (Or.inl rfl) (by decide) (by decide)
  constructor
  · rw [h0.1 (by decide)]
    rfl
  · rw [h1.2.1 (by decide) (by decide)]
    rfl

/-- C7 (amended): on inputs whose key cells are never null, the two
engines match exactly the same (left row, right row) index pairs at every
tier — `pdEq` and `sqlEq` agree on non-null cells — and the difference
between the two `scored_merge` variants is the tier range: the PySpark
loop at `min_score = m + 1` runs `descRange n (m + 1 - 1) = descRange n m`,
exactly the pandas loop at `min_score = m`.  So the two variants realise
the same per-tier matching algorithm; their observable outputs still
diverge, through the pandas exclusive-bound slip, the column-naming
divergence of C4, and the fact that a multi-tier PySpark run on
overlapping schemas raises `AnalysisException` at `unionByName` instead
of returning rows (see the counterexample). -/
theorem claim_C7_engines_agree_modulo_tier_shift (left right : DF)
    (mkeys : List (String × String)) (m i : Int)
    (hL : ∀ row ∈ left.rows, ∀ k ∈ mkeys.map Prod.fst,
      cell left.cols row k ≠ none)
    (hR : ∀ row ∈ right.rows, ∀ k ∈ mkeys.map Prod.snd,
      cell right.cols row k ≠ none) :
    tierPairs pdEq left right ((pySlice (mkeys.map Prod.fst) i).zip
        (pySlice (mkeys.map Prod.snd) i))
      = tierPairs sqlEq left right ((pySlice (mkeys.map Prod.fst) i).zip
        (pySlice (mkeys.map Prod.snd) i))
    ∧ descRange (mkeys.length : Int) (m + 1 - 1)
        = descRange (mkeys.length : Int) m := by
  constructor
  · unfold tierPairs
    congr 1
    apply List.map_congr_left
    intro li hli
    apply List.filterMap_congr
    intro ri hri
    rw [List.mem_range] at hli hri
    have hlrow : left.rows.getD li [] ∈ left.rows := by
      rw [List.getD_eq_getElem left.rows [] hli]
      exact List.getElem_mem hli
    have hrrow : right.rows.getD ri [] ∈ right.rows := by
      rw [List.getD_eq_getElem right.rows [] hri]
      exact List.getElem_mem hri
    rw [rowMatch_pd_eq_sql ?hA ?hB]
    case hA =>
      intro p hp
      obtain ⟨a, b⟩ := p
      exact hL _ hlrow a (pySlice_subset _ i a (List.of_mem_zip hp).1)
    case hB =>
      intro p hp
      obtain ⟨a, b⟩ := p
      exact hR _ hrrow b (pySlice_subset _ i b (List.of_mem_zip hp).2)
  · rw [show m + 1 - 1 = m from by omega]

theorem claim_C7_witness :
    tierPairs pdEq exLeft exRight ((pySlice (exKeys.map Prod.fst) 1).zip
        (pySlice (exKeys.map Prod.snd) 1))
      = tierPairs sqlEq exLeft exRight ((pySlice (exKeys.map Prod.fst) 1).zip
        (pySlice (exKeys.map Prod.snd) 1)) :=
  (claim_C7_engines_agree_modulo_tier_shift exLeft exRight exKeys 1 1
    (by decide) (by decide)).1

end ScoreMJ

namespace ScoreMJ

/-- C9: the final result is the concatenation of the tier batches in
strictly descending tier order (the tier list of either loop is a strictly
decreasing chain), each batch contributing one contiguous segment with its
internal row order preserved, and every row of the tier-`i` segment
carries `merge_score = i`.  For pandas, `pd.concat` reindexes each batch's
rows to the union schema.  For PySpark the batches are appended by
`unionByName`, which only accepts them when the shared batch schema is
free of duplicate names (otherwise the run raises `AnalysisException` and
produces no result at all, see C6/C7); the Spark half is therefore stated
under that duplicate-free hypothesis — satisfied exactly when the two
input schemas are disjoint, as in the witness — together with the
no-op-rename assumption that keeps the batch schemas equal. -/
theorem claim_C9_result_is_ordered_concat (left right : DF)
    (mkeys : List (String × String)) (sfx : String × String) (m : Int)
    (hwl : wf left = true) (hwr : wf right = true)
    (hl : ∀ k ∈ mkeys.map Prod.fst, k ∈ left.cols)
    (hr : ∀ k ∈ mkeys.map Prod.snd, k ∈ right.cols)
    (hsafe : ∀ c ∈ left.cols, c ∈ right.cols →
      (c ++ sfx.1) ∉ left.cols ++ right.cols ++ ["merge_score"])
    (hnd : (sparkBatchCols left right).Nodup) :
    List.Chain' (fun a b => b < a) (descRange (mkeys.length : Int) m)
    ∧ List.Chain' (fun a b => b < a) (descRange (mkeys.length : Int) (m - 1))
    ∧ (m < (mkeys.length : Int) →
        pandasScoredMerge left right mkeys sfx m
          = .ok { cols := unionCols ((descRange (mkeys.length : Int) m).map
                    (pdTierBatch left right mkeys sfx)),
                  rows := ((descRange (mkeys.length : Int) m).map (fun i =>
                    (pdTierBatch left right mkeys sfx i).rows.map
                      (reindexRow (unionCols ((descRange (mkeys.length : Int) m).map
                          (pdTierBatch left right mkeys sfx)))
                        (pdTierBatch left right mkeys sfx i).cols))).flatten }
        ∧ ∀ i ∈ descRange (mkeys.length : Int) m,
            ∀ row ∈ (pdTierBatch left right mkeys sfx i).rows,
              cell (unionCols ((descRange (mkeys.length : Int) m).map
                  (pdTierBatch left right mkeys sfx)))
                (reindexRow (unionCols ((descRange (mkeys.length : Int) m).map
                    (pdTierBatch left right mkeys sfx)))
                  (pdTierBatch left right mkeys sfx i).cols row) "merge_score"
              = some (Scalar.i i))
    ∧ (m ≤ (mkeys.length : Int) →
        sparkScoredMerge left right mkeys sfx m
          = .ok { cols := sparkBatchCols left right,
                  rows := ((descRange (mkeys.length : Int) (m - 1)).map (fun i =>
                    (sparkTierBatch left right mkeys sfx i).rows)).flatten }
        ∧ ∀ i ∈ descRange (mkeys.length : Int) (m - 1),
            ∀ row ∈ (sparkTierBatch left right mkeys sfx i).rows,
              cell (sparkTierBatch left right mkeys sfx i).cols row "merge_score"
              = some (Scalar.i i)) := by
  refine ⟨descRange_chain _ m, descRange_chain _ (m - 1), ?_, ?_⟩
  · intro hm
    constructor
    · rw [pandasScoredMerge_eq hl hr hm]
      congr 1
      simp only [pdConcat]
      congr 1
      rw [List.map_map]
      rfl
    · intro i hi row hrow
      have hwfm : wf (pdMergeDF left right (pySlice (mkeys.map Prod.fst) i)
          (pySlice (mkeys.map Prod.snd) i) sfx) = true :=
        wf_pdMergeDF _ _ sfx hwl hwr
      have hms : "merge_score" ∈ (pdTierBatch left right mkeys sfx i).cols :=
        mem_setCol_cols _ _ _
      have hmu : "merge_score" ∈ unionCols ((descRange (mkeys.length : Int) m).map
          (pdTierBatch left right mkeys sfx)) :=
        mem_unionCols (List.mem_map_of_mem _ hi) hms
      unfold reindexRow
      rw [cell_map_self (cell (pdTierBatch left right mkeys sfx i).cols row)
        "merge_score" _ hmu]
      exact cell_setCol "merge_score" (some (Scalar.i i)) _ hwfm row hrow
  · intro hm
    constructor
    · exact sparkScoredMerge_eq hwl hwr hl hr hsafe hnd hm
    · intro i hi row hrow
      rw [sparkTierBatch_eq_setCol i hsafe] at hrow ⊢
      exact cell_setCol "merge_score" (some (Scalar.i i)) _
        (wf_sparkJoinDF _ hwl hwr) row hrow

theorem claim_C9_witness :
    List.Chain' (fun a b => b < a) (descRange ((exKeysD.length : Nat) : Int) 1)
    ∧ sparkScoredMerge exLeftD exRightD exKeysD ("_left", "_right") 1
      = .ok { cols := sparkBatchCols exLeftD exRightD,
              rows := ((descRange ((exKeysD.length : Nat) : Int) 0).map (fun i =>
                (sparkTierBatch exLeftD exRightD exKeysD ("_left", "_right") i).rows)).flatten } := by
  have h := claim_C9_result_is_ordered_concat exLeftD exRightD exKeysD
    ("_left", "_right") 1 (by decide) (by decide) (by decide) (by decide)
    (by decide) (by decide)
  exact ⟨h.1, (h.2.2.2 (by decide)).1⟩

end ScoreMJ
